import Mathlib

/-!
Verification development for the GPU compositing core of the playtron-os `iced`
rendering backend.

The definitions below are shallow embeddings of the Rust sources:

* `core/src/gradient.rs` — the gradient value model (`Linear`, `ColorStop`,
  `add_stop` with its validation and sorted binary-search insertion);
* `graphics/src/gradient.rs` — the packed wire format (`Packed`, `pack`,
  `pack_f16s`) including a bit-accurate model of `half::f16` conversion;
* `wgpu/src/blur.rs` — the backdrop blur bookkeeping state (`blur::State`);
* `wgpu/src/gradient_fade.rs` — the gradient fade bookkeeping state
  (`gradient_fade::State`);
* `wgpu/src/lib.rs` — the renderer frame state: the opacity stack, `reset`,
  the merge-versus-flush decision in `prepare`, and the index clamping of
  `apply_gradient_fades`.

Rust `f32` values are modelled as exact rationals (`ℚ`); the only place where
non-finite floats are observable is offset validation in `add_stop`, so inputs
of that function carry an explicit `F32` wrapper with `nan` / infinity payloads.
GPU resources (textures, encoders, pipelines) do not influence any of the
verified control flow and are omitted from the state structures.
-/

namespace Iced

/-- Model of a Rust `f32` argument in positions where non-finiteness is
observable (the `offset` parameter of `add_stop`): a finite value is an exact
rational, and `nan`, `inf`, `neginf` are the non-finite payloads. -/
inductive F32 where
  | nan : F32
  | inf : F32
  | neginf : F32
  | fin (val : ℚ) : F32
deriving DecidableEq

/-- Rust `f32::is_finite`. -/
def F32.is_finite : F32 → Bool
  | .fin _ => true
  | _ => false

/-- Rust `(0.0..=1.0).contains(&offset)`: any comparison against NaN is false,
and the infinities fall outside the closed unit range. -/
def F32.in_unit_range : F32 → Bool
  | .fin v => decide (0 ≤ v) && decide (v ≤ 1)
  | _ => false

/-- The `iced_core` color type: four `f32` channels `r`, `g`, `b`, `a`
(the color module itself is an external collaborator; only the field layout
matters for the gradient claims). -/
structure Color where
  r : ℚ
  g : ℚ
  b : ℚ
  a : ℚ
deriving DecidableEq

/-- Rust `Color::default()` (all channels zero); used by `pack` for empty
stop slots, whose color words are irrelevant to every claim here. -/
def Color.default : Color := ⟨0, 0, 0, 0⟩

/-- A color stop of `core/src/gradient.rs`.  The stored offset is modelled as a
rational: `add_stop` only ever stores offsets it has validated as finite (so the
source's `partial_cmp(..).unwrap()` on stored offsets is total). -/
structure ColorStop where
  offset : ℚ
  color : Color
deriving DecidableEq

/-- Total order comparison on finite `f32` values, the result of
`partial_cmp(..).unwrap()` on two finite floats. -/
def cmpRat (a b : ℚ) : Ordering :=
  if a < b then Ordering.lt else if b < a then Ordering.gt else Ordering.eq

/-- The probe closure handed to `binary_search_by` in `Linear::add_stop`
(`core/src/gradient.rs:86-89`): a `None` slot compares `Greater`; a `Some`
stop compares its stored offset against the candidate offset. -/
def stopCompare (offset : ℚ) (stop : Option ColorStop) : Ordering :=
  match stop with
  | none => Ordering.gt
  | some s => cmpRat s.offset offset

/-- The standard-library binary search loop behind `slice::binary_search_by`:
probe the midpoint of the half-open interval `[left, right)`; on `Less` move
`left` past the midpoint, on `Greater` move `right` onto it, on `Equal` return
`Ok(mid)`; an empty interval returns `Err(left)`.  Structural fuel stands in
for the loop; any `fuel ≥ right - left` reproduces the loop exactly, because
each iteration shrinks the interval by at least one and an exhausted interval
returns `Err(left)` in both cases (see `bsLoop_fuel_sufficient`). -/
def bsLoop (g : Nat → Ordering) : Nat → Nat → Nat → Except Nat Nat
  | 0, left, _ => Except.error left
  | fuel + 1, left, right =>
    if left < right then
      let mid := left + (right - left) / 2
      match g mid with
      | Ordering.lt => bsLoop g fuel (mid + 1) right
      | Ordering.gt => bsLoop g fuel left mid
      | Ordering.eq => Except.ok mid
    else Except.error left

/-- Rust `self.stops.binary_search_by(f)`: search the whole slice, probing
elements through the comparator.  Out-of-range probes never happen in the
loop; `getD _ none` is a total stand-in for the slice indexing. -/
def binary_search_by (f : Option ColorStop → Ordering) (xs : List (Option ColorStop)) :
    Except Nat Nat :=
  bsLoop (fun i => f (xs.getD i none)) xs.length 0 xs.length

/-- The `let (Ok(index) | Err(index)) = ...` binding in `add_stop`: both
constructors carry the index that gets used. -/
def searchIndex : Except Nat Nat → Nat
  | .ok i => i
  | .error i => i

/-- The linear gradient of `core/src/gradient.rs`: an angle in radians and a
fixed array of eight optional color stops (kept as a length-8 list). -/
structure Linear where
  angle : ℚ
  stops : List (Option ColorStop)
deriving DecidableEq

/-- Rust `Linear::new(angle)`: all eight stop slots empty. -/
def Linear.new (angle : ℚ) : Linear :=
  ⟨angle, List.replicate 8 none⟩

/-- Rust `Linear::add_stop(offset, color)` (`core/src/gradient.rs:84-99`):
reject non-finite or out-of-`[0,1]` offsets (warn only, return unchanged);
otherwise binary-search the slot index and, if it is below 8, overwrite that
slot with the new stop.  `Radial::add_stop` and `Conic::add_stop` are verbatim
copies of this body in the source. -/
def Linear.add_stop (g : Linear) (offset : F32) (color : Color) : Linear :=
  match offset with
  | .fin o =>
    if 0 ≤ o ∧ o ≤ 1 then
      let index := searchIndex (binary_search_by (stopCompare o) g.stops)
      if index < 8 then { g with stops := g.stops.set index (some ⟨o, color⟩) } else g
    else g
  | _ => g

/-- Rust `Linear::add_stops`: fold `add_stop` over a sequence of
(offset, color) pairs. -/
def Linear.add_stops (g : Linear) (stops : List (F32 × Color)) : Linear :=
  stops.foldl (fun acc p => acc.add_stop p.1 p.2) g

/-- Number of visible (occupied) stop slots. -/
def countStops (stops : List (Option ColorStop)) : Nat :=
  (stops.filterMap id).length

/-- Ordering constraint between two stop slots as the spec states it:
occupied slots precede empty ones, and occupied offsets are non-decreasing. -/
def stopRel : Option ColorStop → Option ColorStop → Prop
  | some s, some t => s.offset ≤ t.offset
  | some _, none => True
  | none, some _ => False
  | none, none => True

/-- Strict version of `stopRel`; this is the invariant the code actually
maintains (occupied offsets are pairwise distinct and increasing). -/
def stopRelStrict : Option ColorStop → Option ColorStop → Prop
  | some s, some t => s.offset < t.offset
  | some _, none => True
  | none, some _ => False
  | none, none => True

instance : DecidableRel stopRel := fun a b =>
  match a, b with
  | some s, some t => inferInstanceAs (Decidable (s.offset ≤ t.offset))
  | some _, none => inferInstanceAs (Decidable True)
  | none, some _ => inferInstanceAs (Decidable False)
  | none, none => inferInstanceAs (Decidable True)

instance : DecidableRel stopRelStrict := fun a b =>
  match a, b with
  | some s, some t => inferInstanceAs (Decidable (s.offset < t.offset))
  | some _, none => inferInstanceAs (Decidable True)
  | none, some _ => inferInstanceAs (Decidable False)
  | none, none => inferInstanceAs (Decidable True)

/-- The sortedness property claimed for the stop list. -/
def stopsSorted (stops : List (Option ColorStop)) : Prop :=
  stops.Pairwise stopRel

/-- The strict invariant maintained by `add_stop`. -/
def stopsSortedStrict (stops : List (Option ColorStop)) : Prop :=
  stops.Pairwise stopRelStrict

instance (stops : List (Option ColorStop)) : Decidable (stopsSorted stops) :=
  inferInstanceAs (Decidable (stops.Pairwise stopRel))

instance (stops : List (Option ColorStop)) : Decidable (stopsSortedStrict stops) :=
  inferInstanceAs (Decidable (stops.Pairwise stopRelStrict))

/-! Properties of the binary-search loop. -/

/-- Any fuel of at least `right - left` computes the same result, so the fueled
loop is an exact rendering of the library loop. -/
theorem bsLoop_fuel_sufficient (g : Nat → Ordering) :
    ∀ (fuel fuel' left right : Nat), right - left ≤ fuel → right - left ≤ fuel' →
    bsLoop g fuel left right = bsLoop g fuel' left right := by
  intro fuel
  induction fuel with
  | zero =>
    intro fuel' left right h _
    cases fuel' with
    | zero => rfl
    | succ n =>
      have hlr : ¬ left < right := by omega
      simp [bsLoop, hlr]
  | succ n ih =>
    intro fuel' left right h h'
    cases fuel' with
    | zero =>
      have hlr : ¬ left < right := by omega
      simp [bsLoop, hlr]
    | succ m =>
      by_cases hlr : left < right
      · have hmid₁ : left ≤ left + (right - left) / 2 := by omega
        have hmid₂ : left + (right - left) / 2 < right := by omega
        simp only [bsLoop, if_pos hlr]
        cases hg : g (left + (right - left) / 2) with
        | lt => exact ih m _ _ (by omega) (by omega)
        | gt => exact ih m _ _ (by omega) (by omega)
        | eq => rfl
      · simp [bsLoop, hlr]

/-- A successful probe: `Ok(j)` means the comparator answered `Equal` at `j`,
which lies inside the searched interval. -/
theorem bsLoop_ok_bounds {g : Nat → Ordering} :
    ∀ {fuel left right j : Nat}, bsLoop g fuel left right = Except.ok j →
    g j = Ordering.eq ∧ left ≤ j ∧ j < right := by
  intro fuel
  induction fuel with
  | zero => intro left right j h; simp [bsLoop] at h
  | succ n ih =>
    intro left right j h
    by_cases hlr : left < right
    · have hmid₁ : left ≤ left + (right - left) / 2 := by omega
      have hmid₂ : left + (right - left) / 2 < right := by omega
      simp only [bsLoop, if_pos hlr] at h
      cases hg : g (left + (right - left) / 2) with
      | lt =>
        rw [hg] at h
        obtain ⟨h1, h2, h3⟩ := ih h
        exact ⟨h1, by omega, h3⟩
      | gt =>
        rw [hg] at h
        obtain ⟨h1, h2, h3⟩ := ih h
        exact ⟨h1, h2, by omega⟩
      | eq =>
        rw [hg] at h
        cases h
        exact ⟨hg, by omega, by omega⟩
    · simp [bsLoop, hlr] at h

/-- A failed search against a monotone comparator: `Err(j)` splits the index
line exactly at `j`, with `Less` strictly below and `Greater` at and above. -/
theorem bsLoop_err_split {g : Nat → Ordering}
    (Hlt : ∀ i k, i ≤ k → g k = Ordering.lt → g i = Ordering.lt)
    (Hgt : ∀ i k, i ≤ k → g i = Ordering.gt → g k = Ordering.gt) :
    ∀ (fuel left right : Nat) {j : Nat}, right - left ≤ fuel → left ≤ right →
    (∀ i, i < left → g i = Ordering.lt) →
    (∀ i, right ≤ i → g i = Ordering.gt) →
    bsLoop g fuel left right = Except.error j →
    (∀ i, i < j → g i = Ordering.lt) ∧ (∀ i, j ≤ i → g i = Ordering.gt) := by
  intro fuel
  induction fuel with
  | zero =>
    intro left right j hfuel hlr hl hr h
    simp only [bsLoop] at h
    cases h
    exact ⟨hl, fun i hi => hr i (by omega)⟩
  | succ n ih =>
    intro left right j hfuel hlr hl hr h
    by_cases hlt : left < right
    · have hmid₁ : left ≤ left + (right - left) / 2 := by omega
      have hmid₂ : left + (right - left) / 2 < right := by omega
      simp only [bsLoop, if_pos hlt] at h
      cases hg : g (left + (right - left) / 2) with
      | lt =>
        rw [hg] at h
        refine ih _ _ (by omega) (by omega) ?_ hr h
        intro i hi
        exact Hlt i _ (by omega) hg
      | gt =>
        rw [hg] at h
        refine ih _ _ (by omega) (by omega) hl ?_ h
        intro i hi
        exact Hgt _ i hi hg
      | eq => rw [hg] at h; cases h
    · simp only [bsLoop, if_neg hlt] at h
      cases h
      exact ⟨hl, fun i hi => hr i (by omega)⟩

theorem cmpRat_eq_lt {a b : ℚ} : cmpRat a b = Ordering.lt ↔ a < b := by
  unfold cmpRat
  split_ifs with h1 h2 <;> simp [h1]

theorem cmpRat_eq_gt {a b : ℚ} : cmpRat a b = Ordering.gt ↔ b < a := by
  unfold cmpRat
  split_ifs with h1 h2
  · simp only [reduceCtorEq, false_iff]
    exact fun hc => absurd h1 (not_lt_of_lt hc)
  · simp [h2]
  · simp [h2]

theorem cmpRat_eq_eq {a b : ℚ} : cmpRat a b = Ordering.eq ↔ a = b := by
  unfold cmpRat
  split_ifs with h1 h2
  · simp [ne_of_lt h1]
  · simp [(ne_of_lt h2).symm]
  · simp [le_antisymm (le_of_not_lt h2) (le_of_not_lt h1)]

/-- Positions at or past the end of the stop list always compare `Greater`
(the probe sees the `getD` default, which stands for no element). -/
theorem stopCompare_getD_default {xs : List (Option ColorStop)} {o : ℚ} {i : Nat}
    (h : xs.length ≤ i) : stopCompare o (xs.getD i none) = Ordering.gt := by
  rw [List.getD_eq_default _ _ h]
  rfl

/-- On a strictly sorted stop list the probe is antitone on `Less`: if a later
position compares `Less`, so does every earlier one. -/
theorem stopCompare_anti_lt {xs : List (Option ColorStop)} {o : ℚ}
    (hs : stopsSortedStrict xs) :
    ∀ i k, i ≤ k → stopCompare o (xs.getD k none) = Ordering.lt →
      stopCompare o (xs.getD i none) = Ordering.lt := by
  intro i k hik hk
  rcases eq_or_lt_of_le hik with rfl | hik
  · exact hk
  · by_cases hklen : k < xs.length
    · rw [List.getD_eq_getElem _ _ hklen] at hk
      have hilen : i < xs.length := lt_trans hik hklen
      have hrel := (List.pairwise_iff_getElem.mp hs) i k hilen hklen hik
      rw [List.getD_eq_getElem _ _ hilen]
      cases hxk : xs[k] with
      | none => rw [hxk] at hk; simp [stopCompare] at hk
      | some s =>
        rw [hxk] at hk
        have hso : s.offset < o := cmpRat_eq_lt.mp hk
        cases hxi : xs[i] with
        | none =>
          rw [hxi, hxk] at hrel
          exact absurd hrel (by simp [stopRelStrict])
        | some t =>
          rw [hxi, hxk] at hrel
          have hts : t.offset < s.offset := by simpa [stopRelStrict] using hrel
          show cmpRat t.offset o = Ordering.lt
          exact cmpRat_eq_lt.mpr (lt_trans hts hso)
    · rw [List.getD_eq_default _ _ (le_of_not_lt hklen)] at hk
      simp [stopCompare] at hk

/-- On a strictly sorted stop list the probe is monotone on `Greater`: if an
earlier position compares `Greater`, so does every later one. -/
theorem stopCompare_mono_gt {xs : List (Option ColorStop)} {o : ℚ}
    (hs : stopsSortedStrict xs) :
    ∀ i k, i ≤ k → stopCompare o (xs.getD i none) = Ordering.gt →
      stopCompare o (xs.getD k none) = Ordering.gt := by
  intro i k hik hi
  rcases eq_or_lt_of_le hik with rfl | hik
  · exact hi
  · by_cases hklen : k < xs.length
    · have hilen : i < xs.length := lt_trans hik hklen
      have hrel := (List.pairwise_iff_getElem.mp hs) i k hilen hklen hik
      rw [List.getD_eq_getElem _ _ hilen] at hi
      rw [List.getD_eq_getElem _ _ hklen]
      cases hxi : xs[i] with
      | none =>
        rw [hxi] at hrel
        cases hxk : xs[k] with
        | none => simp [stopCompare]
        | some s =>
          rw [hxk] at hrel
          exact absurd hrel (by simp [stopRelStrict])
      | some t =>
        rw [hxi] at hi hrel
        have hto : o < t.offset := cmpRat_eq_gt.mp hi
        cases hxk : xs[k] with
        | none => simp [stopCompare]
        | some s =>
          rw [hxk] at hrel
          have hts : t.offset < s.offset := by simpa [stopRelStrict] using hrel
          show cmpRat s.offset o = Ordering.gt
          exact cmpRat_eq_gt.mpr (lt_trans hto hts)
    · rw [List.getD_eq_default _ _ (le_of_not_lt hklen)]
      rfl

/-- Overwriting one slot keeps the strict sort order provided the new value
relates correctly to every strictly lower and strictly higher slot. -/
theorem sortedStrict_set {xs : List (Option ColorStop)} {j : Nat} {x : Option ColorStop}
    (hs : stopsSortedStrict xs)
    (hlow : ∀ a (ha : a < xs.length), a < j → stopRelStrict xs[a] x)
    (hhigh : ∀ b (hb : b < xs.length), j < b → stopRelStrict x xs[b]) :
    stopsSortedStrict (xs.set j x) := by
  unfold stopsSortedStrict at hs ⊢
  rw [List.pairwise_iff_getElem] at hs ⊢
  intro a b ha hb hab
  rw [List.length_set] at ha hb
  simp only [List.getElem_set]
  by_cases haj : j = a
  · subst haj
    by_cases hbj : j = b
    · omega
    · simp only [if_pos rfl, if_neg hbj]
      exact hhigh b hb hab
  · by_cases hbj : j = b
    · subst hbj
      simp only [if_neg haj, if_pos rfl]
      exact hlow a ha hab
    · simp only [if_neg haj, if_neg hbj]
      exact hs a b ha hb hab

/-- Rejected offsets leave the gradient untouched (the source only logs a
warning). -/
theorem add_stop_invalid (g : Linear) (off : F32) (c : Color)
    (h : ¬ (off.is_finite && off.in_unit_range) = true) :
    g.add_stop off c = g := by
  cases off with
  | fin o =>
    have hno : ¬ (0 ≤ o ∧ o ≤ 1) := by
      intro hc
      exact h (by simp [F32.is_finite, F32.in_unit_range, hc.1, hc.2])
    simp [Linear.add_stop, hno]
  | nan => rfl
  | inf => rfl
  | neginf => rfl

/-- Inserting a stop preserves the length of the slot array. -/
theorem add_stop_length (g : Linear) (off : F32) (c : Color) :
    (g.add_stop off c).stops.length = g.stops.length := by
  cases off with
  | fin o =>
    simp only [Linear.add_stop]
    split_ifs <;> simp [List.length_set]
  | nan => rfl
  | inf => rfl
  | neginf => rfl

/-- Inserting a stop preserves the strict sorted invariant, whatever the
offset argument is. -/
theorem add_stop_sortedStrict (g : Linear) (off : F32) (c : Color)
    (hs : stopsSortedStrict g.stops) :
    stopsSortedStrict (g.add_stop off c).stops := by
  cases off with
  | nan => exact hs
  | inf => exact hs
  | neginf => exact hs
  | fin o =>
    by_cases hvalid : 0 ≤ o ∧ o ≤ 1
    · simp only [Linear.add_stop, if_pos hvalid]
      rcases hsearch : binary_search_by (stopCompare o) g.stops with j | j
      · -- Err(j): the probe splits strictly below and at-or-above j
        have hsplit := bsLoop_err_split
          (g := fun i => stopCompare o (g.stops.getD i none))
          (stopCompare_anti_lt hs) (stopCompare_mono_gt hs)
          g.stops.length 0 g.stops.length
          (by omega) (by omega)
          (fun i hi => absurd hi (Nat.not_lt_zero i))
          (fun i hi => stopCompare_getD_default hi)
          hsearch
        obtain ⟨hlow, hhigh⟩ := hsplit
        simp only [hsearch, searchIndex]
        by_cases hj : j < 8
        · simp only [if_pos hj]
          apply sortedStrict_set hs
          · intro a ha haj
            replace hlow : stopCompare o (g.stops.getD a none) = Ordering.lt := hlow a haj
            have hla := hlow
            rw [List.getD_eq_getElem _ _ ha] at hla
            cases hxa : g.stops[a] with
            | none => rw [hxa] at hla; simp [stopCompare] at hla
            | some t =>
              rw [hxa] at hla
              have := cmpRat_eq_lt.mp hla
              simpa [stopRelStrict] using this
          · intro b hb hjb
            replace hhigh : stopCompare o (g.stops.getD b none) = Ordering.gt :=
              hhigh b (le_of_lt hjb)
            have hgb := hhigh
            rw [List.getD_eq_getElem _ _ hb] at hgb
            cases hxb : g.stops[b] with
            | none => simp [stopRelStrict]
            | some t =>
              rw [hxb] at hgb
              have := cmpRat_eq_gt.mp hgb
              simpa [stopRelStrict] using this
        · simp only [if_neg hj]
          exact hs
      · -- Ok(j): the probed slot holds exactly the candidate offset
        have hok := bsLoop_ok_bounds (g := fun i => stopCompare o (g.stops.getD i none)) hsearch
        obtain ⟨heq, -, hjlen⟩ := hok
        replace heq : stopCompare o (g.stops.getD j none) = Ordering.eq := heq
        rw [List.getD_eq_getElem _ _ hjlen] at heq
        simp only [hsearch, searchIndex]
        by_cases hj : j < 8
        · simp only [if_pos hj]
          cases hxj : g.stops[j] with
          | none => rw [hxj] at heq; simp [stopCompare] at heq
          | some s =>
            rw [hxj] at heq
            have hso : s.offset = o := cmpRat_eq_eq.mp heq
            apply sortedStrict_set hs
            · intro a ha haj
              have hrel := (List.pairwise_iff_getElem.mp hs) a j ha hjlen haj
              rw [hxj] at hrel
              cases hxa : g.stops[a] with
              | none =>
                rw [hxa] at hrel
                exact absurd hrel (by simp [stopRelStrict])
              | some t =>
                rw [hxa] at hrel
                have hts : t.offset < s.offset := by simpa [stopRelStrict] using hrel
                have : t.offset < o := hso ▸ hts
                simpa [stopRelStrict] using this
            · intro b hb hjb
              have hrel := (List.pairwise_iff_getElem.mp hs) j b hjlen hb hjb
              rw [hxj] at hrel
              cases hxb : g.stops[b] with
              | none => simp [stopRelStrict]
              | some t =>
                rw [hxb] at hrel
                have hst : s.offset < t.offset := by simpa [stopRelStrict] using hrel
                have : o < t.offset := hso ▸ hst
                simpa [stopRelStrict] using this
        · simp only [if_neg hj]
          exact hs
    · simp only [Linear.add_stop, if_neg hvalid]
      exact hs

theorem countStops_cons_none (l : List (Option ColorStop)) :
    countStops (none :: l) = countStops l := by
  simp [countStops]

theorem countStops_cons_some (s : ColorStop) (l : List (Option ColorStop)) :
    countStops (some s :: l) = countStops l + 1 := by
  simp [countStops, List.filterMap_cons]

theorem countStops_le_length (l : List (Option ColorStop)) : countStops l ≤ l.length := by
  induction l with
  | nil => simp [countStops]
  | cons a l ih =>
    cases a with
    | none => rw [countStops_cons_none]; simp; omega
    | some s => rw [countStops_cons_some]; simp; omega

theorem all_isSome_of_countStops (l : List (Option ColorStop))
    (h : countStops l = l.length) : ∀ x ∈ l, x.isSome = true := by
  induction l with
  | nil => intro x hx; cases hx
  | cons a l ih =>
    cases a with
    | none =>
      exfalso
      have h1 := countStops_le_length l
      rw [countStops_cons_none] at h
      simp only [List.length_cons] at h
      omega
    | some s =>
      intro x hx
      rcases List.mem_cons.mp hx with rfl | hx
      · rfl
      · refine ih ?_ x hx
        rw [countStops_cons_some] at h
        simpa using h

theorem countStops_of_all_isSome (l : List (Option ColorStop))
    (h : ∀ x ∈ l, x.isSome = true) : countStops l = l.length := by
  induction l with
  | nil => rfl
  | cons a l ih =>
    cases a with
    | none => have := h none (by simp); simp at this
    | some s =>
      rw [countStops_cons_some, List.length_cons]
      have := ih (fun x hx => h x (List.mem_cons_of_mem _ hx))
      omega

/-- Builder folds preserve the strict invariant. -/
theorem add_stops_sortedStrict (ops : List (F32 × Color)) :
    ∀ (g : Linear), stopsSortedStrict g.stops → stopsSortedStrict (g.add_stops ops).stops := by
  induction ops with
  | nil => intro g hs; exact hs
  | cons p ops ih =>
    intro g hs
    exact ih _ (add_stop_sortedStrict _ _ _ hs)

/-- Builder folds preserve the slot-array length. -/
theorem add_stops_length (ops : List (F32 × Color)) :
    ∀ (g : Linear), (g.add_stops ops).stops.length = g.stops.length := by
  induction ops with
  | nil => intro g; rfl
  | cons p ops ih =>
    intro g
    rw [Linear.add_stops, List.foldl_cons]
    have h1 := ih (g.add_stop p.1 p.2)
    rw [Linear.add_stops] at h1
    rw [h1, add_stop_length]

/-- A fresh gradient has all slots empty, which is strictly sorted. -/
theorem new_sortedStrict (angle : ℚ) : stopsSortedStrict (Linear.new angle).stops := by
  show stopsSortedStrict (List.replicate 8 none)
  decide

/-! Embedding of the wgpu renderer frame state: `wgpu/src/blur.rs`,
`wgpu/src/gradient_fade.rs` and the frame-level pieces of `wgpu/src/lib.rs`.
GPU resources (textures, pipelines, encoders) influence none of the verified
bookkeeping and are omitted from the state structures. -/

/-- The `iced_core` rectangle with `f32` fields. -/
structure Rectangle where
  x : ℚ
  y : ℚ
  width : ℚ
  height : ℚ
deriving DecidableEq

/-- Configuration of a backdrop blur (`blur.rs::BackdropBlur`): bounds, radius
and the four corner radii. -/
structure BackdropBlur where
  bounds : Rectangle
  radius : ℚ
  border_radius : List ℚ
deriving DecidableEq

/-- A recorded blur region (`blur.rs::BlurRegion`): content before
`layer_index` is the blur source. -/
structure BlurRegion where
  blur : BackdropBlur
  layer_index : Nat
deriving DecidableEq

/-- Content rendered after blur compositing (`blur.rs::PostBlurContent`);
`end_layer` is `None` while the bracket is still open. -/
structure PostBlurContent where
  bounds : Rectangle
  start_layer : Nat
  end_layer : Option Nat
deriving DecidableEq

namespace Blur

/-- The blur bookkeeping state (`blur.rs::State`): pending regions, completed
post-blur content ranges, and the currently open post-blur bracket. -/
structure State where
  regions : List BlurRegion
  post_blur_content : List PostBlurContent
  current_post_blur : Option (Rectangle × Nat)
deriving DecidableEq

/-- Rust `State::new` (`Default`): everything empty. -/
def State.new : State := ⟨[], [], none⟩

/-- Rust `State::add_region`. -/
def State.add_region (s : State) (blur : BackdropBlur) (layer_index : Nat) : State :=
  { s with regions := s.regions ++ [⟨blur, layer_index⟩] }

/-- Rust `State::has_regions`. -/
def State.has_regions (s : State) : Bool := !s.regions.isEmpty

/-- Rust `State::clear` (`blur.rs:621-624`): clears the pending regions only;
`post_blur_content` and `current_post_blur` are untouched by this method. -/
def State.clear (s : State) : State := { s with regions := [] }

/-- Rust `State::start_post_blur`: opens (or replaces) the recording bracket. -/
def State.start_post_blur (s : State) (bounds : Rectangle) (layer_index : Nat) : State :=
  { s with current_post_blur := some (bounds, layer_index) }

/-- Rust `State::end_post_blur`: closes an open bracket into a completed
range; a missing bracket is a no-op. -/
def State.end_post_blur (s : State) (end_layer : Nat) : State :=
  match s.current_post_blur with
  | some (bounds, start_layer) =>
    { s with
      current_post_blur := none
      post_blur_content := s.post_blur_content ++ [⟨bounds, start_layer, some end_layer⟩] }
  | none => s

/-- Rust `State::has_post_blur_content`. -/
def State.has_post_blur_content (s : State) : Bool := !s.post_blur_content.isEmpty

/-- Rust `State::is_layer_in_post_blur`: a layer is skipped in the main pass
when a completed range contains it (an open `end_layer` acts as `usize::MAX`)
or the open bracket has started at or before it. -/
def State.is_layer_in_post_blur (s : State) (layer_index : Nat) : Bool :=
  s.post_blur_content.any (fun content =>
    decide (content.start_layer ≤ layer_index) &&
      match content.end_layer with
      | some e => decide (layer_index < e)
      | none => true) ||
  (match s.current_post_blur with
   | some (_, start) => decide (start ≤ layer_index)
   | none => false)

end Blur

/-- Direction of a gradient fade (`gradient_fade.rs::FadeDirection`). -/
inductive FadeDirection where
  | topToBottom
  | bottomToTop
  | leftToRight
  | rightToLeft
  | verticalBoth
  | horizontalBoth
deriving DecidableEq

/-- Configuration of a gradient fade (`gradient_fade.rs::GradientFade`). -/
structure GradientFade where
  bounds : Rectangle
  direction : FadeDirection
  fade_start : ℚ
  fade_end : ℚ
deriving DecidableEq

/-- A completed fade region (`gradient_fade.rs::GradientFadeRegion`):
layer range `[start_layer, end_layer)`. -/
structure GradientFadeRegion where
  fade : GradientFade
  start_layer : Nat
  end_layer : Nat
deriving DecidableEq

/-- An active, not yet closed fade (`gradient_fade.rs::ActiveFade`). -/
structure ActiveFade where
  fade : GradientFade
  start_layer : Nat
deriving DecidableEq

namespace Fade

/-- The gradient-fade bookkeeping state (`gradient_fade.rs::State`), without
the cached offscreen texture (a pure GPU resource). -/
structure State where
  completed_regions : List GradientFadeRegion
  active : Option ActiveFade
deriving DecidableEq

/-- Rust `State::new`. -/
def State.new : State := ⟨[], none⟩

/-- Rust `State::is_active`. -/
def State.is_active (s : State) : Bool := s.active.isSome

/-- Rust `State::start` (`gradient_fade.rs:342-347`): records the fade and the
current layer count, silently replacing any previously active fade. -/
def State.start (s : State) (fade : GradientFade) (current_layer_count : Nat) : State :=
  { s with active := some ⟨fade, current_layer_count⟩ }

/-- Rust `State::end` (`gradient_fade.rs:355-367`); `end` is a Lean keyword,
hence the name.  Takes the active fade, appends the completed region and
returns it; with no active fade, returns `None` and changes nothing. -/
def State.end_fade (s : State) (current_layer_count : Nat) :
    State × Option GradientFadeRegion :=
  match s.active with
  | some active =>
    let region : GradientFadeRegion := ⟨active.fade, active.start_layer, current_layer_count⟩
    ({ s with active := none, completed_regions := s.completed_regions ++ [region] },
      some region)
  | none => (s, none)

/-- Rust `State::is_layer_in_fade_region`. -/
def State.is_layer_in_fade_region (s : State) (layer_index : Nat) : Bool :=
  s.completed_regions.any (fun r =>
    decide (r.start_layer ≤ layer_index) && decide (layer_index < r.end_layer))

/-- Rust `State::clear` (`gradient_fade.rs:388-392`): drops the completed
regions and the active fade. -/
def State.clear (_ : State) : State := ⟨[], none⟩

end Fade

/-- Modelled from the spec: the layer stack implementation (`layer::Stack`) is
not among the provided sources (only its callers in `wgpu/src/lib.rs` are).
Per spec section 4.2 it supports `reset(bounds)`, which re-initializes the
stack to the given bounds; only that re-initialization is observable in the
claims settled here, so the model keeps just the bounds of the freshly reset
stack. -/
structure LayerStack where
  bounds : Rectangle
deriving DecidableEq

/-- Modelled from the spec: `Stack::reset(new_bounds)` re-initializes the
stack to the new bounds. -/
def LayerStack.reset (_ : LayerStack) (new_bounds : Rectangle) : LayerStack :=
  ⟨new_bounds⟩

/-- The frame-relevant fields of `wgpu/src/lib.rs::Renderer`: the layer stack,
the opacity stack (a `Vec<f32>`, last element on top), and the two deferred
effect states. -/
structure Renderer where
  layers : LayerStack
  opacity_stack : List ℚ
  gradient_fade : Fade.State
  blur_state : Blur.State
deriving DecidableEq

/-- Rust `Renderer::new` frame state: `opacity_stack: vec![1.0]` and empty
effect states (`lib.rs:109-141`). -/
def Renderer.initial (bounds : Rectangle) : Renderer :=
  ⟨⟨bounds⟩, [1], Fade.State.new, Blur.State.new⟩

/-- Rust `Renderer::current_opacity` (`lib.rs:144-147`):
`opacity_stack.last().unwrap_or(&1.0)`. -/
def Renderer.current_opacity (r : Renderer) : ℚ :=
  r.opacity_stack.getLast?.getD 1

/-- Rust `f32::clamp(0.0, 1.0)` on a finite value. -/
def clamp01 (q : ℚ) : ℚ := max 0 (min q 1)

/-- Rust `Renderer::start_opacity` (`lib.rs:1438-1442`): push the product of
the current top (default 1) and the clamped factor. -/
def Renderer.start_opacity (r : Renderer) (_bounds : Rectangle) (opacity : ℚ) : Renderer :=
  { r with opacity_stack :=
      r.opacity_stack ++ [r.opacity_stack.getLast?.getD 1 * clamp01 opacity] }

/-- Rust `Renderer::end_opacity` (`lib.rs:1444-1448`): pop only while more
than the base element is present. -/
def Renderer.end_opacity (r : Renderer) : Renderer :=
  if r.opacity_stack.length > 1 then
    { r with opacity_stack := r.opacity_stack.dropLast }
  else r

/-- An opacity bracket call, for stating properties over call sequences. -/
inductive OpacityOp where
  | push (bounds : Rectangle) (opacity : ℚ)
  | pop
deriving DecidableEq

/-- Run a sequence of `start_opacity` / `end_opacity` calls. -/
def Renderer.run_opacity_ops (r : Renderer) (ops : List OpacityOp) : Renderer :=
  ops.foldl (fun acc op =>
    match op with
    | .push bounds o => acc.start_opacity bounds o
    | .pop => acc.end_opacity) r

/-- Rust `Renderer::reset` (`lib.rs:1425-1436`): reset the layer stack to the
new bounds, reset the opacity stack to `[1.0]`, and call `clear` on the fade
state and on the blur state. -/
def Renderer.reset (r : Renderer) (new_bounds : Rectangle) : Renderer :=
  { r with
    layers := r.layers.reset new_bounds
    opacity_stack := [1]
    gradient_fade := r.gradient_fade.clear
    blur_state := r.blur_state.clear }

/-- The two possible layer-stack calls issued by `Renderer::prepare`. -/
inductive LayerPass where
  | merge
  | flush
deriving DecidableEq

/-- The merge-versus-flush decision of `Renderer::prepare` (`lib.rs:356-373`):
`has_blur = has_post_blur_content() || has_regions()`; merge when `!has_blur`,
otherwise only flush.  The gradient-fade state is visible to `prepare` through
`self` but does not enter the decision. -/
def Renderer.prepare_layer_pass (r : Renderer) : LayerPass :=
  let has_blur := r.blur_state.has_post_blur_content || r.blur_state.has_regions
  if !has_blur then LayerPass.merge else LayerPass.flush

/-- Index clamping performed for each region replay by
`Renderer::apply_gradient_fades` (`lib.rs:1234-1236`):
`end_idx = min(end_layer, len)` then `start_idx = min(start_layer, end_idx)`;
the replayed slice is `layers[start_idx..end_idx]`. -/
def fade_replay_range (region : GradientFadeRegion) (num_layers : Nat) : Nat × Nat :=
  (min region.start_layer (min region.end_layer num_layers),
   min region.end_layer num_layers)

/-- The layer indices actually replayed for a fade region: the positions of
the slice `layers[start_idx..end_idx]`. -/
def fade_replay_indices (region : GradientFadeRegion) (num_layers : Nat) : List Nat :=
  (List.range ((fade_replay_range region num_layers).2
      - (fade_replay_range region num_layers).1)).map
    (· + (fade_replay_range region num_layers).1)

/-! Embedding of the packed gradient wire format, `graphics/src/gradient.rs`.
The half-precision conversion `f16::from_f32` is modelled bit-exactly on the
rational value: round to nearest, ties to even, with subnormal and overflow
handling. -/

/-- Round to nearest integer, ties to even: the IEEE rounding used by the
`half` crate for `f16::from_f32`. -/
def rne (q : ℚ) : ℤ :=
  if q - ⌊q⌋ < 1 / 2 then ⌊q⌋
  else if 1 / 2 < q - ⌊q⌋ then ⌊q⌋ + 1
  else if ⌊q⌋ % 2 = 0 then ⌊q⌋ else ⌊q⌋ + 1

/-- Search for the largest biased exponent `E ≤ fuel` with `2 ^ E ≤ qs`
(descending scan; `0` when none is found). -/
def findExpB : Nat → ℚ → Nat
  | 0, _ => 0
  | e + 1, qs => if (2 : ℚ) ^ (e + 1) ≤ qs then e + 1 else findExpB e qs

/-- Half-precision bit pattern of a nonnegative value: the biased exponent `E`
of `q` satisfies `2 ^ E ≤ q * 2 ^ 15 < 2 ^ (E + 1)` (value exponent `E - 15`),
the significand is rounded to 11 bits, and the bit pattern `1024 * (E - 1) + m`
absorbs both the hidden bit and a rounding overflow into the next binade;
values below `2 ^ (-14)` take the subnormal path with fixed scale `2 ^ (-24)`,
and values rounding past the largest finite half become infinity `0x7C00`. -/
def f16BitsPos (q : ℚ) : Nat :=
  if q * 2 ^ 15 < 2 then
    (rne (q * 2 ^ 24)).toNat
  else
    if findExpB 30 (q * 2 ^ 15) = 30
        ∧ 2048 ≤ (rne (q * 2 ^ 25 / 2 ^ findExpB 30 (q * 2 ^ 15))).toNat
    then 31744
    else 1024 * (findExpB 30 (q * 2 ^ 15) - 1)
      + (rne (q * 2 ^ 25 / 2 ^ findExpB 30 (q * 2 ^ 15))).toNat

/-- Half-precision bit pattern of a finite `f32` value (`f16::from_f32`
followed by `to_bits`): sign bit plus magnitude pattern. -/
def f16Bits (q : ℚ) : Nat :=
  if q < 0 then 32768 + f16BitsPos (-q) else f16BitsPos q

/-- Numeric value of a half-precision bit pattern (exponent field 31 never
arises from the inputs used here and is decoded by the same formula). -/
def f16Val (bits : Nat) : ℚ :=
  if bits % 32768 / 1024 = 0 then
    (if 32768 ≤ bits then (-1 : ℚ) else 1) * (bits % 32768 % 1024 : ℕ) / 2 ^ 24
  else
    (if 32768 ≤ bits then (-1 : ℚ) else 1) * (1024 + (bits % 32768 % 1024 : ℕ))
      * 2 ^ (bits % 32768 / 1024) / 2 ^ 25

/-- Rust `pack_f16s` (`graphics/src/gradient.rs:462-467`): first pattern in
the high 16 bits, second in the low 16 bits; on 16-bit inputs the shift-or of
the source is exactly this arithmetic. -/
def pack_f16s (hi lo : Nat) : Nat := hi * 2 ^ 16 + lo

/-- Modelled from the spec: `color::pack(color).components()` belongs to the
external color-packing collaborator (spec section 1 puts exact color
management out of scope); the packed components are modelled as the raw
channel values.  No claim inspects color words. -/
def color_pack_components (c : Color) : ℚ × ℚ × ℚ × ℚ := (c.r, c.g, c.b, c.a)

/-- The `iced_core` point with `f32` fields. -/
structure Point where
  x : ℚ
  y : ℚ
deriving DecidableEq

/-- The core radial gradient (`core/src/gradient.rs::Radial`): center and
radii as ratios of the bounds, plus the eight stop slots. -/
structure Radial where
  center : Point
  radius_x : ℚ
  radius_y : ℚ
  stops : List (Option ColorStop)
deriving DecidableEq

/-- The core conic gradient (`core/src/gradient.rs::Conic`). -/
structure Conic where
  center : Point
  angle : ℚ
  stops : List (Option ColorStop)
deriving DecidableEq

/-- The core gradient union (`core/src/gradient.rs::Gradient`). -/
inductive Gradient where
  | linear (g : Linear)
  | radial (g : Radial)
  | conic (g : Conic)
deriving DecidableEq

/-- Stop slots of a core gradient, uniform over the three variants. -/
def Gradient.stopSlots : Gradient → List (Option ColorStop)
  | .linear g => g.stops
  | .radial g => g.stops
  | .conic g => g.stops

/-- The packed wire record (`graphics/src/gradient.rs:331-344`, `repr(C)`):
eight color slots of two `u32` words each, four `u32` offset words, four `f32`
direction values, the `u32` type tag, and three `u32` padding words. -/
structure Packed where
  colors : List (Nat × Nat)
  offsets : List Nat
  direction : List ℚ
  gradient_type : Nat
  padding : List Nat
deriving DecidableEq

/-- Byte size of the `repr(C)` layout of a `Packed` record: every field is a
`u32` or `f32` scalar of size and alignment four, so the layout is four bytes
per scalar with no interior padding. -/
def Packed.byteSize (p : Packed) : Nat :=
  4 * (2 * p.colors.length) + 4 * p.offsets.length + 4 * p.direction.length
    + 4 + 4 * p.padding.length

/-- The color-word loop shared verbatim by the three arms of `pack`
(`graphics/src/gradient.rs:350-363` and its two copies): each slot packs its
four half-precision channels (default color for empty slots) into two words. -/
def packColorWords (stops : List (Option ColorStop)) : List (Nat × Nat) :=
  stops.map (fun stop =>
    let comps := color_pack_components ((stop.map ColorStop.color).getD Color.default)
    (pack_f16s (f16Bits comps.1) (f16Bits comps.2.1),
     pack_f16s (f16Bits comps.2.2.1) (f16Bits comps.2.2.2)))

/-- The 16-bit offset pattern of one stop slot
(`graphics/src/gradient.rs:362`): sentinel `2.0` for an empty slot, the stored
offset otherwise. -/
def stopOffsetBits (stop : Option ColorStop) : Nat :=
  match stop with
  | none => f16Bits 2
  | some s => f16Bits s.offset

/-- The offset words of `pack` (`graphics/src/gradient.rs:365-370`): the eight
16-bit offsets packed pairwise into four words, first of each pair in the high
bits. -/
def packOffsetWords (stops : List (Option ColorStop)) : List Nat :=
  [pack_f16s (stopOffsetBits (stops.getD 0 none)) (stopOffsetBits (stops.getD 1 none)),
   pack_f16s (stopOffsetBits (stops.getD 2 none)) (stopOffsetBits (stops.getD 3 none)),
   pack_f16s (stopOffsetBits (stops.getD 4 none)) (stopOffsetBits (stops.getD 5 none)),
   pack_f16s (stopOffsetBits (stops.getD 6 none)) (stopOffsetBits (stops.getD 7 none))]

/-- Modelled from the spec: `Radians::to_distance(&bounds)` lives in the core
angle module, which is not among the provided sources; the spec calls it an
external angle-to-distance routine resolving the angle into a start/end
segment across the bounds.  Its output reaches only the `direction` field,
which no claim inspects, so the model resolves every angle to the bounds
diagonal. -/
def to_distance (_angle : ℚ) (bounds : Rectangle) : Point × Point :=
  (⟨bounds.x, bounds.y⟩, ⟨bounds.x + bounds.width, bounds.y + bounds.height⟩)

/-- Rust `pack(gradient, bounds)` (`graphics/src/gradient.rs:347-459`): pack
stops, resolve the variant-specific `direction` quadruple against the bounds,
and tag the gradient type (0 linear, 1 radial, 2 conic) with three zero
padding words. -/
def pack (gradient : Gradient) (bounds : Rectangle) : Packed :=
  match gradient with
  | .linear linear =>
    let se := to_distance linear.angle bounds
    { colors := packColorWords linear.stops
      offsets := packOffsetWords linear.stops
      direction := [se.1.x, se.1.y, se.2.x, se.2.y]
      gradient_type := 0
      padding := [0, 0, 0] }
  | .radial radial =>
    { colors := packColorWords radial.stops
      offsets := packOffsetWords radial.stops
      direction := [bounds.x + radial.center.x * bounds.width,
                    bounds.y + radial.center.y * bounds.height,
                    radial.radius_x * bounds.width,
                    radial.radius_y * bounds.height]
      gradient_type := 1
      padding := [0, 0, 0] }
  | .conic conic =>
    { colors := packColorWords conic.stops
      offsets := packOffsetWords conic.stops
      direction := [bounds.x + conic.center.x * bounds.width,
                    bounds.y + conic.center.y * bounds.height,
                    conic.angle, 0]
      gradient_type := 2
      padding := [0, 0, 0] }

/-- Extract the 16-bit pattern of offset slot `i` from the packed offset
words: word `i / 2`, high half for even `i`, low half for odd `i`. -/
def offsetBitsAt (p : Packed) (i : Nat) : Nat :=
  if i % 2 = 0 then p.offsets.getD (i / 2) 0 / 2 ^ 16
  else p.offsets.getD (i / 2) 0 % 2 ^ 16

/-! Numeric facts about the half-precision model. -/

theorem rne_ge (q : ℚ) : q - 1 / 2 ≤ (rne q : ℚ) := by
  have hfl : (⌊q⌋ : ℚ) ≤ q := Int.floor_le q
  have hfu : q < ⌊q⌋ + 1 := Int.lt_floor_add_one q
  unfold rne
  split_ifs with h1 h2 h3 <;> push_cast <;> linarith

theorem rne_le (q : ℚ) : (rne q : ℚ) ≤ q + 1 / 2 := by
  have hfl : (⌊q⌋ : ℚ) ≤ q := Int.floor_le q
  have hfu : q < ⌊q⌋ + 1 := Int.lt_floor_add_one q
  unfold rne
  split_ifs with h1 h2 h3 <;> push_cast <;> linarith

theorem findExpB_le_self {qs : ℚ} (hqs : 1 ≤ qs) :
    ∀ fuel, (2 : ℚ) ^ findExpB fuel qs ≤ qs := by
  intro fuel
  induction fuel with
  | zero => simpa [findExpB] using hqs
  | succ e ih =>
    unfold findExpB
    split_ifs with h
    · exact h
    · exact ih

theorem findExpB_upper (qs : ℚ) :
    ∀ fuel, findExpB fuel qs = fuel ∨ qs < 2 ^ (findExpB fuel qs + 1) := by
  intro fuel
  induction fuel with
  | zero => exact Or.inl rfl
  | succ e ih =>
    unfold findExpB
    split_ifs with h
    · exact Or.inl rfl
    · rcases ih with heq | hlt
      · rw [heq]
        exact Or.inr (by simpa using lt_of_not_le h)
      · exact Or.inr hlt

theorem findExpB_le_fuel (qs : ℚ) : ∀ fuel, findExpB fuel qs ≤ fuel := by
  intro fuel
  induction fuel with
  | zero => exact Nat.le_refl 0
  | succ e ih =>
    unfold findExpB
    split_ifs with h
    · exact Nat.le_refl _
    · exact Nat.le_succ_of_le ih

/-- Decoding of a pattern with a zero exponent field and no sign. -/
theorem f16Val_small {b : Nat} (hb : b < 1024) : f16Val b = b / 2 ^ 24 := by
  unfold f16Val
  have h2 : b % 32768 = b := Nat.mod_eq_of_lt (by omega)
  rw [h2]
  have h3 : b / 1024 = 0 := Nat.div_eq_of_lt hb
  have h4 : b % 1024 = b := Nat.mod_eq_of_lt hb
  rw [h3, h4]
  rw [if_pos rfl, if_neg (by omega : ¬ 32768 ≤ b)]
  ring

/-- Decoding of a normal positive pattern. -/
theorem f16Val_normal {E M : Nat} (hE1 : 1 ≤ E) (hE : E ≤ 30) (hM : M < 1024) :
    f16Val (1024 * E + M) = ((1024 + M : ℕ) : ℚ) * 2 ^ E / 2 ^ 25 := by
  unfold f16Val
  have h2 : (1024 * E + M) % 32768 = 1024 * E + M := Nat.mod_eq_of_lt (by omega)
  rw [h2]
  have h3 : (1024 * E + M) / 1024 = E := by omega
  have h4 : (1024 * E + M) % 1024 = M := by omega
  rw [h3, h4]
  rw [if_neg (by omega : ¬ E = 0), if_neg (by omega : ¬ 32768 ≤ 1024 * E + M)]
  push_cast
  ring

/-- Bounds on the rounded significand, transported to `Nat`. -/
theorem le_rne_toNat {x : ℚ} {n : ℕ} (h : (n : ℚ) ≤ x) : n ≤ (rne x).toNat := by
  have hlb := rne_ge x
  have h1 : ((n : ℚ)) - 1 < (rne x : ℚ) := by linarith
  have hint : (n : ℤ) - 1 < rne x := by exact_mod_cast h1
  omega

theorem rne_toNat_le {x : ℚ} {n : ℕ} (h : x < (n : ℚ) + 1 / 2) : (rne x).toNat ≤ n := by
  have hub := rne_le x
  have h1 : (rne x : ℚ) < (n : ℚ) + 1 := by linarith
  have hint : rne x < (n : ℤ) + 1 := by exact_mod_cast h1
  omega

/-- The rounded value sits within half a unit of the input, in `ℚ`, when the
rounding is nonnegative. -/
theorem rne_toNat_cast {x : ℚ} (hx : 0 ≤ x) :
    ((rne x).toNat : ℚ) ≤ x + 1 / 2 ∧ x - 1 / 2 ≤ ((rne x).toNat : ℚ) := by
  have hub := rne_le x
  have hlb := rne_ge x
  have h0 : 0 ≤ rne x := by
    have h1 : (-1 : ℚ) < (rne x : ℚ) := by linarith
    have hint : (-1 : ℤ) < rne x := by exact_mod_cast h1
    omega
  have hcast : ((rne x).toNat : ℚ) = (rne x : ℚ) := by
    have := Int.toNat_of_nonneg h0
    exact_mod_cast congrArg Int.cast this
  rw [hcast]
  exact ⟨hub, hlb⟩

/-- Shape of the normal branch of `f16BitsPos` on the unit interval: biased
exponent between 1 and 15, rounded significand between 1024 and 2048, with the
boundary cases pinned down. -/
theorem f16_normal_facts {q : ℚ} (h1 : q ≤ 1) (hsub : ¬ q * 2 ^ 15 < 2) :
    1 ≤ findExpB 30 (q * 2 ^ 15) ∧ findExpB 30 (q * 2 ^ 15) ≤ 15 ∧
    1024 ≤ (rne (q * 2 ^ 25 / 2 ^ findExpB 30 (q * 2 ^ 15))).toNat ∧
    (rne (q * 2 ^ 25 / 2 ^ findExpB 30 (q * 2 ^ 15))).toNat ≤ 2048 ∧
    (findExpB 30 (q * 2 ^ 15) = 15 →
      (rne (q * 2 ^ 25 / 2 ^ findExpB 30 (q * 2 ^ 15))).toNat = 1024) := by
  have hqs2 : (2 : ℚ) ≤ q * 2 ^ 15 := le_of_not_lt hsub
  have hqs15 : q * 2 ^ 15 ≤ 2 ^ 15 := by nlinarith
  have hE_le : (2 : ℚ) ^ findExpB 30 (q * 2 ^ 15) ≤ q * 2 ^ 15 :=
    findExpB_le_self (by linarith) 30
  set E : Nat := findExpB 30 (q * 2 ^ 15) with hEdef
  have hE30 : E ≤ 30 := findExpB_le_fuel _ 30
  have hE15 : E ≤ 15 := by
    by_contra hcon
    have h16 : (2 : ℚ) ^ 16 ≤ 2 ^ E :=
      pow_le_pow_right₀ (by norm_num) (by omega)
    nlinarith
  have hEup : q * 2 ^ 15 < 2 ^ (E + 1) := by
    rcases findExpB_upper (q * 2 ^ 15) 30 with heq | hlt
    · exfalso
      rw [← hEdef] at heq
      omega
    · exact hlt
  have hE1 : 1 ≤ E := by
    by_contra hcon
    have hE0 : E = 0 := by omega
    rw [hE0] at hEup
    norm_num at hEup
    linarith
  have hpowE : (0 : ℚ) < 2 ^ E := by positivity
  have hxlow : (2 : ℚ) ^ 10 ≤ q * 2 ^ 25 / 2 ^ E := by
    rw [le_div_iff₀ hpowE]
    calc (2 : ℚ) ^ 10 * 2 ^ E = 2 ^ E * 2 ^ 10 := by ring
    _ ≤ (q * 2 ^ 15) * 2 ^ 10 := by nlinarith
    _ = q * 2 ^ 25 := by ring
  have hxhigh : q * 2 ^ 25 / 2 ^ E < 2 ^ 11 := by
    rw [div_lt_iff₀ hpowE]
    calc q * 2 ^ 25 = (q * 2 ^ 15) * 2 ^ 10 := by ring
    _ < 2 ^ (E + 1) * 2 ^ 10 := by nlinarith
    _ = 2 ^ 11 * 2 ^ E := by ring
  refine ⟨hE1, hE15, ?_, ?_, ?_⟩
  · exact le_rne_toNat (by norm_num at hxlow ⊢; linarith)
  · exact rne_toNat_le (by norm_num at hxhigh ⊢; linarith)
  · intro hE15eq
    have hqs_eq : q * 2 ^ 15 = 2 ^ 15 := by
      have h215 : (2 : ℚ) ^ 15 ≤ q * 2 ^ 15 := by
        calc (2 : ℚ) ^ 15 = 2 ^ E := by rw [hE15eq]
        _ ≤ q * 2 ^ 15 := hE_le
      linarith
    have hq1 : q = 1 := by nlinarith
    have hx_eq : q * 2 ^ 25 / 2 ^ E = 1024 := by
      rw [hE15eq, hq1]
      norm_num
    have hle : (rne (q * 2 ^ 25 / 2 ^ E)).toNat ≤ 1024 :=
      rne_toNat_le (by rw [hx_eq]; norm_num)
    have hge : 1024 ≤ (rne (q * 2 ^ 25 / 2 ^ E)).toNat :=
      le_rne_toNat (by rw [hx_eq]; norm_num)
    omega

/-- Values of the closed unit interval convert to patterns strictly below the
pattern of `2.0`, and the converted value decodes back into the unit
interval. -/
theorem f16BitsPos_unit {q : ℚ} (h0 : 0 ≤ q) (h1 : q ≤ 1) :
    f16BitsPos q < 16384 ∧ 0 ≤ f16Val (f16BitsPos q) ∧ f16Val (f16BitsPos q) ≤ 1 := by
  unfold f16BitsPos
  split_ifs with hsub hof
  · -- subnormal branch: the pattern is at most 1024
    have hx : q * 2 ^ 24 < 1024 := by
      have hqe : q * 2 ^ 24 = (q * 2 ^ 15) * 2 ^ 9 := by ring
      rw [hqe]
      nlinarith [hsub]
    have hx0 : (0 : ℚ) ≤ q * 2 ^ 24 := by positivity
    have hk1024 : (rne (q * 2 ^ 24)).toNat ≤ 1024 := rne_toNat_le (by push_cast; linarith)
    set k : Nat := (rne (q * 2 ^ 24)).toNat with hkdef
    obtain ⟨hkub, hklb⟩ := rne_toNat_cast hx0
    rw [← hkdef] at hkub hklb
    refine ⟨by omega, ?_, ?_⟩
    · rcases Nat.lt_or_ge k 1024 with hklt | hkeq
      · rw [f16Val_small hklt]
        positivity
      · have hkeq1 : k = 1024 := by omega
        rw [hkeq1]
        rw [show (1024 : Nat) = 1024 * 1 + 0 by norm_num,
          f16Val_normal (by norm_num) (by norm_num) (by norm_num)]
        positivity
    · rcases Nat.lt_or_ge k 1024 with hklt | hkeq
      · rw [f16Val_small hklt]
        rw [div_le_one (by positivity)]
        have hkb : (k : ℚ) ≤ 1024 := by exact_mod_cast hk1024
        nlinarith
      · have hkeq1 : k = 1024 := by omega
        rw [hkeq1]
        rw [show (1024 : Nat) = 1024 * 1 + 0 by norm_num,
          f16Val_normal (by norm_num) (by norm_num) (by norm_num)]
        norm_num
  · -- overflow branch is unreachable below 2: the exponent cannot reach 30
    exfalso
    obtain ⟨hE1, hE15, -, -, -⟩ := f16_normal_facts h1 hsub
    omega
  · -- normal branch
    obtain ⟨hE1, hE15, hk_low, hk_high, hpin⟩ := f16_normal_facts h1 hsub
    set E : Nat := findExpB 30 (q * 2 ^ 15) with hEdef
    set k : Nat := (rne (q * 2 ^ 25 / 2 ^ E)).toNat with hkdef
    rcases Nat.lt_or_ge k 2048 with hk2047 | hk2048
    · -- no binade overflow: pattern 1024 * E + (k - 1024)
      have hbits : 1024 * (E - 1) + k = 1024 * E + (k - 1024) := by omega
      rw [hbits]
      have hval := f16Val_normal (E := E) (M := k - 1024) hE1 (by omega) (by omega)
      have hcast : ((1024 + (k - 1024) : ℕ) : ℚ) = (k : ℚ) := by
        have heq : (1024 + (k - 1024) : ℕ) = k := by omega
        rw [heq]
      rw [hval, hcast]
      refine ⟨by omega, by positivity, ?_⟩
      rw [div_le_one (by positivity)]
      rcases Nat.lt_or_ge E 15 with hE14 | hE15ge
      · have hkb : (k : ℚ) ≤ 2047 := by exact_mod_cast Nat.lt_succ_iff.mp hk2047
        have hpow14 : (2 : ℚ) ^ E ≤ 2 ^ 14 :=
          pow_le_pow_right₀ (by norm_num) (by omega)
        have hp0 : (0 : ℚ) < 2 ^ E := by positivity
        calc (k : ℚ) * 2 ^ E ≤ 2047 * 2 ^ 14 :=
              mul_le_mul hkb hpow14 (le_of_lt hp0) (by norm_num)
        _ ≤ 2 ^ 25 := by norm_num
      · have hE15eq : E = 15 := by omega
        have hk1024 : k = 1024 := hpin hE15eq
        rw [hk1024, hE15eq]
        norm_num
    · -- rounding crossed into the next binade: pattern 1024 * (E + 1)
      have hkeq : k = 2048 := by omega
      have hE14 : E ≤ 14 := by
        by_contra hcon
        have hE15eq : E = 15 := by omega
        have := hpin hE15eq
        omega
      have hbits : 1024 * (E - 1) + k = 1024 * (E + 1) + 0 := by omega
      rw [hbits]
      have hval := f16Val_normal (E := E + 1) (M := 0) (by omega) (by omega) (by norm_num)
      rw [hval]
      refine ⟨by omega, by positivity, ?_⟩
      rw [div_le_one (by positivity)]
      have hpow15 : (2 : ℚ) ^ (E + 1) ≤ 2 ^ 15 :=
        pow_le_pow_right₀ (by norm_num) (by omega)
      calc ((1024 + 0 : ℕ) : ℚ) * 2 ^ (E + 1) ≤ 1024 * 2 ^ 15 := by
            push_cast
            exact mul_le_mul (by norm_num) hpow15 (by positivity) (by norm_num)
      _ ≤ 2 ^ 25 := by norm_num

/-- The pattern of a unit-interval value, with the sign case discharged. -/
theorem f16Bits_unit {q : ℚ} (h0 : 0 ≤ q) (h1 : q ≤ 1) :
    f16Bits q < 16384 ∧ 0 ≤ f16Val (f16Bits q) ∧ f16Val (f16Bits q) ≤ 1 := by
  unfold f16Bits
  rw [if_neg (not_lt.mpr h0)]
  exact f16BitsPos_unit h0 h1

/-- High half of a packed pair of 16-bit patterns. -/
theorem pack_f16s_hi {hi lo : Nat} (hlo : lo < 2 ^ 16) :
    pack_f16s hi lo / 2 ^ 16 = hi := by
  unfold pack_f16s
  omega

/-- Low half of a packed pair of 16-bit patterns. -/
theorem pack_f16s_lo {hi lo : Nat} (hlo : lo < 2 ^ 16) :
    pack_f16s hi lo % 2 ^ 16 = lo := by
  unfold pack_f16s
  omega

/-- The strict invariant implies the spec-stated sortedness. -/
theorem sortedStrict_to_sorted {xs : List (Option ColorStop)}
    (h : stopsSortedStrict xs) : stopsSorted xs := by
  unfold stopsSorted
  unfold stopsSortedStrict at h
  refine List.Pairwise.imp ?_ h
  intro a b hab
  cases a with
  | none => cases b with
    | none => trivial
    | some t => exact absurd hab (by simp [stopRelStrict])
  | some s => cases b with
    | none => trivial
    | some t => exact le_of_lt hab

/-- Validity of one stored stop slot: an occupied slot carries an offset
inside the closed unit interval (what `add_stop` guarantees for every slot it
ever stores). -/
def stopValid : Option ColorStop → Prop
  | none => True
  | some t => 0 ≤ t.offset ∧ t.offset ≤ 1

instance : DecidablePred stopValid := fun s =>
  match s with
  | none => inferInstanceAs (Decidable True)
  | some t => inferInstanceAs (Decidable (0 ≤ t.offset ∧ t.offset ≤ 1))

/-! Concrete sample values used by witnesses and counterexamples. -/

/-- A sample rectangle. -/
def sampleRect : Rectangle := ⟨0, 0, 100, 100⟩

/-- A sample fade configuration. -/
def sampleFade : GradientFade := ⟨sampleRect, FadeDirection.topToBottom, 7 / 10, 1⟩

/-- An opaque black sample color. -/
def sampleColor : Color := ⟨0, 0, 0, 1⟩

/-- An opaque red sample color. -/
def sampleColor2 : Color := ⟨1, 0, 0, 1⟩

/-- A gradient with all eight slots occupied, at offsets 0, 0.1, …, 0.7. -/
def fullGradient : Linear := (Linear.new 0).add_stops
  ([0, 1, 2, 3, 4, 5, 6, 7].map (fun i => (F32.fin (i / 10), sampleColor)))

/-- A two-insertion builder sequence with valid offsets, out of order. -/
def sampleOps : List (F32 × Color) :=
  [(F32.fin (1 / 2), sampleColor), (F32.fin (1 / 4), sampleColor2)]

/-! The claims. -/

/-- C5: for every sequence of `add_stop` calls with valid offsets in `[0,1]`
starting from a fresh gradient, the resulting stop list is sorted ascending by
offset (occupied slots precede empty ones with non-decreasing offsets) and
holds at most 8 stops.  The conclusion in fact holds for arbitrary call
sequences, since invalid offsets are dropped; the validity hypothesis mirrors
the claim. -/
theorem c5_add_stops_sorted (angle : ℚ) (ops : List (F32 × Color))
    (_hvalid : ∀ p ∈ ops, (p.1.is_finite && p.1.in_unit_range) = true) :
    stopsSorted ((Linear.new angle).add_stops ops).stops ∧
    countStops ((Linear.new angle).add_stops ops).stops ≤ 8 := by
  have hsorted := add_stops_sortedStrict ops (Linear.new angle) (new_sortedStrict angle)
  refine ⟨sortedStrict_to_sorted hsorted, ?_⟩
  have hcount := countStops_le_length ((Linear.new angle).add_stops ops).stops
  have hlen := add_stops_length ops (Linear.new angle)
  have hlen8 : (Linear.new angle).stops.length = 8 := by
    show (List.replicate 8 (none : Option ColorStop)).length = 8
    simp
  omega

theorem c5_witness :
    (∀ p ∈ sampleOps, (p.1.is_finite && p.1.in_unit_range) = true) ∧
    (stopsSorted ((Linear.new 0).add_stops sampleOps).stops ∧
      countStops ((Linear.new 0).add_stops sampleOps).stops ≤ 8) :=
  ⟨by with_unfolding_all decide,
    c5_add_stops_sorted 0 sampleOps (by with_unfolding_all decide)⟩

/-- C6: the opacity stack never drops below length 1 for any call sequence;
two `start_opacity(_, 0.5)` calls take `current_opacity` to 0.25, the two
matching `end_opacity` calls return it to 1.0, and `end_opacity` with only the
base element present leaves the state unchanged. -/
theorem c6_opacity_stack (bounds : Rectangle) (ops : List OpacityOp) :
    1 ≤ ((Renderer.initial bounds).run_opacity_ops ops).opacity_stack.length ∧
    ((Renderer.initial sampleRect).run_opacity_ops
      [OpacityOp.push sampleRect (1 / 2),
        OpacityOp.push sampleRect (1 / 2)]).current_opacity = 1 / 4 ∧
    ((Renderer.initial sampleRect).run_opacity_ops
      [OpacityOp.push sampleRect (1 / 2), OpacityOp.push sampleRect (1 / 2),
        OpacityOp.pop, OpacityOp.pop]).current_opacity = 1 ∧
    (∀ r : Renderer, r.opacity_stack.length = 1 → r.end_opacity = r) := by
  refine ⟨?_, by with_unfolding_all decide, by with_unfolding_all decide, ?_⟩
  · have hgen : ∀ (l : List OpacityOp) (r : Renderer), 1 ≤ r.opacity_stack.length →
        1 ≤ (r.run_opacity_ops l).opacity_stack.length := by
      intro l
      induction l with
      | nil => intro r hr; exact hr
      | cons op l ih =>
        intro r hr
        cases op with
        | push b o =>
          refine ih _ ?_
          show 1 ≤ (r.start_opacity b o).opacity_stack.length
          simp [Renderer.start_opacity]
        | pop =>
          refine ih _ ?_
          show 1 ≤ r.end_opacity.opacity_stack.length
          unfold Renderer.end_opacity
          split_ifs with h
          · simp only [List.length_dropLast]
            omega
          · exact hr
    exact hgen ops _ (by simp [Renderer.initial])
  · intro r hr
    unfold Renderer.end_opacity
    rw [if_neg (by omega)]

theorem c6_witness :
    (Renderer.initial sampleRect).opacity_stack.length = 1 ∧
    (Renderer.initial sampleRect).end_opacity = Renderer.initial sampleRect :=
  ⟨by with_unfolding_all decide,
    (c6_opacity_stack sampleRect []).2.2.2 (Renderer.initial sampleRect)
      (by with_unfolding_all decide)⟩

/-- C7: from any fade state, `start(fade, N)` followed by `end(M)` records
exactly one new `GradientFadeRegion` with `start_layer = N`, `end_layer = M`
and returns it, leaving no active fade; `end` without an active fade returns
`None` and changes nothing (no panic: the operation is total). -/
theorem c7_fade_round_trip (s : Fade.State) (fade : GradientFade) (N M : Nat) :
    (((s.start fade N).end_fade M).2 = some ⟨fade, N, M⟩ ∧
      ((s.start fade N).end_fade M).1.completed_regions
        = s.completed_regions ++ [⟨fade, N, M⟩] ∧
      ((s.start fade N).end_fade M).1.active = none) ∧
    (s.active = none → s.end_fade M = (s, none)) := by
  refine ⟨⟨rfl, rfl, rfl⟩, ?_⟩
  intro h
  unfold Fade.State.end_fade
  rw [h]

theorem c7_witness :
    Fade.State.new.active = none ∧
    Fade.State.new.end_fade 5 = (Fade.State.new, none) ∧
    ((Fade.State.new.start sampleFade 2).end_fade 5).2 = some ⟨sampleFade, 2, 5⟩ :=
  ⟨rfl, (c7_fade_round_trip Fade.State.new sampleFade 2 5).2 rfl,
    (c7_fade_round_trip Fade.State.new sampleFade 2 5).1.1⟩

/-- C8: the replay range of `apply_gradient_fades` is clamped as
`end_idx = min(end_layer, len)` and `start_idx = min(start_layer, end_idx)`,
so every replayed index is in bounds, and a region with
`start_layer ≥ end_layer` or with `start_layer` beyond the layer count replays
no layers instead of panicking. -/
theorem c8_fade_replay_clamp (region : GradientFadeRegion) (num_layers : Nat) :
    (fade_replay_range region num_layers).1 ≤ (fade_replay_range region num_layers).2 ∧
    (fade_replay_range region num_layers).2 ≤ num_layers ∧
    (∀ i ∈ fade_replay_indices region num_layers, i < num_layers) ∧
    (region.start_layer ≥ region.end_layer ∨ num_layers ≤ region.start_layer →
      fade_replay_indices region num_layers = []) := by
  unfold fade_replay_indices fade_replay_range
  refine ⟨by omega, by omega, ?_, ?_⟩
  · intro i hi
    simp only [List.mem_map, List.mem_range] at hi
    obtain ⟨j, hj, rfl⟩ := hi
    omega
  · intro h
    have heq : min region.start_layer (min region.end_layer num_layers)
        = min region.end_layer num_layers := by omega
    simp [heq]

theorem c8_witness :
    ((5 : Nat) ≥ 3 ∨ (4 : Nat) ≤ 5) ∧
    fade_replay_indices ⟨sampleFade, 5, 3⟩ 4 = [] ∧
    ((2 : Nat) ∈ fade_replay_indices ⟨sampleFade, 1, 3⟩ 4 → 2 < 4) :=
  ⟨Or.inl (by decide),
    (c8_fade_replay_clamp ⟨sampleFade, 5, 3⟩ 4).2.2.2 (Or.inl (by decide)),
    fun hmem => (c8_fade_replay_clamp ⟨sampleFade, 1, 3⟩ 4).2.2.1 2 hmem⟩

/-- C9: `add_stop` with a non-finite offset or an offset outside `[0,1]`
returns the gradient with its stop list unchanged; the input is silently
dropped (the source only emits a log warning) and no error reaches the
caller. -/
theorem c9_add_stop_rejects (g : Linear) (off : F32) (c : Color)
    (h : ¬ (off.is_finite && off.in_unit_range) = true) :
    g.add_stop off c = g :=
  add_stop_invalid g off c h

theorem c9_witness :
    (¬ (F32.nan.is_finite && F32.nan.in_unit_range) = true) ∧
    fullGradient.add_stop F32.nan sampleColor = fullGradient ∧
    (Linear.new 0).add_stop (F32.fin (-1 / 10)) sampleColor = Linear.new 0 ∧
    (Linear.new 0).add_stop (F32.fin (11 / 10)) sampleColor = Linear.new 0 :=
  ⟨by with_unfolding_all decide,
    c9_add_stop_rejects _ _ _ (by with_unfolding_all decide),
    c9_add_stop_rejects _ _ _ (by with_unfolding_all decide),
    c9_add_stop_rejects _ _ _ (by with_unfolding_all decide)⟩

/-- A renderer with one completed gradient-fade region and an empty blur
state. -/
def fadeOnlyRenderer : Renderer :=
  { Renderer.initial sampleRect with
    gradient_fade := ((Fade.State.new.start sampleFade 0).end_fade 2).1 }

/-- C1 counterexample: with a completed gradient-fade region recorded and an
empty blur state, `prepare` still chooses `merge`, so the merge decision is
not gated on gradient-fade regions as the claim states. -/
theorem c1_counterexample :
    fadeOnlyRenderer.prepare_layer_pass = LayerPass.merge ∧
    fadeOnlyRenderer.gradient_fade.completed_regions ≠ [] := by
  constructor
  · with_unfolding_all decide
  · with_unfolding_all decide

/-- C1 (amended): during `prepare`, `layers.merge()` is called exactly when
the blur state holds no pending blur regions and no completed post-blur
content ranges, and only `flush()` is called otherwise; gradient-fade regions
(and an open post-blur bracket) do not enter the decision. -/
theorem c1_prepare_merge_iff (r : Renderer) :
    r.prepare_layer_pass = LayerPass.merge ↔
      r.blur_state.regions = [] ∧ r.blur_state.post_blur_content = [] := by
  by_cases h1 : r.blur_state.post_blur_content = [] <;>
    by_cases h2 : r.blur_state.regions = [] <;>
      simp [Renderer.prepare_layer_pass, Blur.State.has_post_blur_content,
        Blur.State.has_regions, h1, h2, List.isEmpty_iff]

/-- A renderer with one completed post-blur content range. -/
def postBlurRenderer : Renderer :=
  { Renderer.initial sampleRect with
    blur_state := (Blur.State.new.start_post_blur sampleRect 0).end_post_blur 2 }

/-- A renderer with an open post-blur bracket. -/
def openBracketRenderer : Renderer :=
  { Renderer.initial sampleRect with
    blur_state := Blur.State.new.start_post_blur sampleRect 0 }

/-- C2 counterexample: after `reset`, a previously recorded post-blur content
range and a previously opened post-blur bracket are both still present in the
blur state (`blur::State::clear` clears only `regions`), contradicting the
claim that the blur state holds no recorded post-blur content ranges and no
open bracket after `reset`. -/
theorem c2_counterexample :
    (postBlurRenderer.reset sampleRect).blur_state.post_blur_content ≠ [] ∧
    (openBracketRenderer.reset sampleRect).blur_state.current_post_blur ≠ none := by
  constructor
  · with_unfolding_all decide
  · with_unfolding_all decide

/-- C2 (amended): `reset(new_bounds)` re-initializes the layer stack to the
new bounds, resets the opacity stack to `[1.0]`, clears the gradient-fade
state (no completed regions, no active fade) and the pending blur regions,
but leaves recorded post-blur content ranges and any open post-blur bracket
untouched. -/
theorem c2_reset_state (r : Renderer) (new_bounds : Rectangle) :
    (r.reset new_bounds).layers = ⟨new_bounds⟩ ∧
    (r.reset new_bounds).opacity_stack = [1] ∧
    (r.reset new_bounds).gradient_fade.completed_regions = [] ∧
    (r.reset new_bounds).gradient_fade.active = none ∧
    (r.reset new_bounds).blur_state.regions = [] ∧
    (r.reset new_bounds).blur_state.post_blur_content = r.blur_state.post_blur_content ∧
    (r.reset new_bounds).blur_state.current_post_blur = r.blur_state.current_post_blur :=
  ⟨rfl, rfl, rfl, rfl, rfl, rfl, rfl⟩

/-- A gradient with the fixed eight (empty) stop slots. -/
def sampleGradient : Gradient := Gradient.linear ⟨0, List.replicate 8 none⟩

/-- C3 counterexample: the packed record of a concrete gradient is 112 bytes,
not the 128 bytes the claim states. -/
theorem c3_counterexample : (pack sampleGradient sampleRect).byteSize ≠ 128 := by
  have h : (pack sampleGradient sampleRect).byteSize = 112 := by
    simp [pack, Packed.byteSize, packColorWords, packOffsetWords, sampleGradient]
  omega

/-- C3 (amended): the packed wire record laid out as 8×(2×u32) colors, 4×u32
offsets, 4×f32 direction, 1×u32 type tag and 3×u32 padding is 112 bytes in
total, and that size is a multiple of 16 (the alignment the padding words
maintain). -/
theorem c3_packed_layout (g : Gradient) (bounds : Rectangle)
    (hlen : g.stopSlots.length = 8) :
    (pack g bounds).byteSize = 112 ∧ 16 ∣ (pack g bounds).byteSize := by
  have h : (pack g bounds).byteSize = 112 := by
    cases g with
    | linear lg =>
      have h8 : lg.stops.length = 8 := hlen
      simp [pack, Packed.byteSize, packColorWords, packOffsetWords, h8]
    | radial rg =>
      have h8 : rg.stops.length = 8 := hlen
      simp [pack, Packed.byteSize, packColorWords, packOffsetWords, h8]
    | conic cg =>
      have h8 : cg.stops.length = 8 := hlen
      simp [pack, Packed.byteSize, packColorWords, packOffsetWords, h8]
  exact ⟨h, by rw [h]; norm_num⟩

theorem c3_witness :
    sampleGradient.stopSlots.length = 8 ∧
    ((pack sampleGradient sampleRect).byteSize = 112 ∧
      16 ∣ (pack sampleGradient sampleRect).byteSize) :=
  ⟨by with_unfolding_all decide,
    c3_packed_layout sampleGradient sampleRect (by with_unfolding_all decide)⟩

/-- Overwriting a slot of a fully occupied array with an occupied slot keeps
every slot occupied. -/
theorem countStops_set_all_some {l : List (Option ColorStop)} (i : Nat) (x : ColorStop)
    (hall : ∀ s ∈ l, s.isSome = true) :
    countStops (l.set i (some x)) = l.length := by
  have hall2 : ∀ s ∈ l.set i (some x), s.isSome = true := by
    intro s hs
    rcases List.mem_or_eq_of_mem_set hs with h | rfl
    · exact hall s h
    · rfl
  rw [countStops_of_all_isSome _ hall2, List.length_set]

/-- C4 counterexample: with eight stops stored at offsets 0, 0.1, …, 0.7,
adding the valid offset 0.05 keeps the count at 8 but changes the stored
stops (the stop at offset 0.1 is overwritten), contradicting the claim that
the insertion is dropped with the 8 stored stops unchanged. -/
theorem c4_counterexample :
    (fullGradient.add_stop (F32.fin (1 / 20)) sampleColor2).stops ≠ fullGradient.stops := by
  with_unfolding_all decide

/-- C4 (amended): on a gradient already holding 8 color stops, a further
`add_stop` with a valid offset leaves the visible stop count at 8; the
insertion is dropped with the stops unchanged exactly in the case that the
offset is greater than every stored offset, and otherwise the stop at the
binary-search insertion index is overwritten with the new stop. -/
theorem c4_add_stop_full (g : Linear) (o : ℚ) (c : Color)
    (hlen : g.stops.length = 8) (hfull : countStops g.stops = 8)
    (hs : stopsSortedStrict g.stops) (h0 : 0 ≤ o) (h1 : o ≤ 1) :
    countStops (g.add_stop (F32.fin o) c).stops = 8 ∧
    ((∀ t : ColorStop, some t ∈ g.stops → t.offset < o) → g.add_stop (F32.fin o) c = g) ∧
    (¬ (∀ t : ColorStop, some t ∈ g.stops → t.offset < o) →
      ∃ i, i < 8 ∧ (g.add_stop (F32.fin o) c).stops = g.stops.set i (some ⟨o, c⟩)) := by
  have hvalid : 0 ≤ o ∧ o ≤ 1 := ⟨h0, h1⟩
  have hallsome := all_isSome_of_countStops g.stops (by omega)
  have hcount : countStops (g.add_stop (F32.fin o) c).stops = 8 := by
    simp only [Linear.add_stop, if_pos hvalid]
    split_ifs with hidx
    · show countStops (g.stops.set _ (some ⟨o, c⟩)) = 8
      rw [countStops_set_all_some _ _ hallsome]
      exact hlen
    · exact hfull
  refine ⟨hcount, ?_, ?_⟩
  · intro hbelow
    have hcomp : ∀ i, i < 8 → stopCompare o (g.stops.getD i none) = Ordering.lt := by
      intro i hi
      have hilen : i < g.stops.length := by omega
      rw [List.getD_eq_getElem _ _ hilen]
      have hsome := hallsome _ (List.getElem_mem hilen)
      rcases Option.isSome_iff_exists.mp hsome with ⟨t, ht⟩
      rw [ht]
      exact cmpRat_eq_lt.mpr (hbelow t (ht ▸ List.getElem_mem hilen))
    rcases hsearch : binary_search_by (stopCompare o) g.stops with j | j
    · have hsplit := bsLoop_err_split
        (g := fun i => stopCompare o (g.stops.getD i none))
        (stopCompare_anti_lt hs) (stopCompare_mono_gt hs)
        g.stops.length 0 g.stops.length
        (by omega) (by omega)
        (fun i hi => absurd hi (Nat.not_lt_zero i))
        (fun i hi => stopCompare_getD_default hi)
        hsearch
      obtain ⟨-, hhigh⟩ := hsplit
      have hj8 : ¬ j < 8 := by
        intro hj
        have hc1 := hcomp j hj
        replace hhigh : stopCompare o (g.stops.getD j none) = Ordering.gt :=
          hhigh j (le_refl j)
        rw [hc1] at hhigh
        exact absurd hhigh (by decide)
      simp only [Linear.add_stop, if_pos hvalid, hsearch, searchIndex, if_neg hj8]
    · have hok := bsLoop_ok_bounds
        (g := fun i => stopCompare o (g.stops.getD i none)) hsearch
      obtain ⟨heq, -, hjlen⟩ := hok
      replace heq : stopCompare o (g.stops.getD j none) = Ordering.eq := heq
      have hc1 := hcomp j (by omega)
      rw [hc1] at heq
      exact absurd heq (by decide)
  · intro hnot
    push_neg at hnot
    obtain ⟨t, htmem, hto⟩ := hnot
    obtain ⟨w, hw, hwt⟩ := List.mem_iff_getElem.mp htmem
    have hw8 : w < 8 := by omega
    have hcompw : stopCompare o (g.stops.getD w none) ≠ Ordering.lt := by
      rw [List.getD_eq_getElem _ _ hw, hwt]
      intro hcon
      exact absurd (cmpRat_eq_lt.mp hcon) (not_lt_of_le hto)
    rcases hsearch : binary_search_by (stopCompare o) g.stops with j | j
    · have hsplit := bsLoop_err_split
        (g := fun i => stopCompare o (g.stops.getD i none))
        (stopCompare_anti_lt hs) (stopCompare_mono_gt hs)
        g.stops.length 0 g.stops.length
        (by omega) (by omega)
        (fun i hi => absurd hi (Nat.not_lt_zero i))
        (fun i hi => stopCompare_getD_default hi)
        hsearch
      obtain ⟨hlow, -⟩ := hsplit
      have hj : j ≤ w := by
        by_contra hcon
        exact hcompw (hlow w (by omega))
      refine ⟨j, by omega, ?_⟩
      simp only [Linear.add_stop, if_pos hvalid, hsearch, searchIndex,
        if_pos (show j < 8 by omega)]
    · obtain ⟨-, -, hjlen⟩ := bsLoop_ok_bounds
        (g := fun i => stopCompare o (g.stops.getD i none)) hsearch
      refine ⟨j, by omega, ?_⟩
      simp only [Linear.add_stop, if_pos hvalid, hsearch, searchIndex,
        if_pos (show j < 8 by omega)]

theorem c4_witness :
    (fullGradient.stops.length = 8 ∧ countStops fullGradient.stops = 8 ∧
      stopsSortedStrict fullGradient.stops ∧ (0 : ℚ) ≤ 9 / 10 ∧ (9 / 10 : ℚ) ≤ 1) ∧
    countStops (fullGradient.add_stop (F32.fin (9 / 10)) sampleColor2).stops = 8 :=
  ⟨⟨by with_unfolding_all decide, by with_unfolding_all decide,
      by with_unfolding_all decide, by with_unfolding_all decide,
      by with_unfolding_all decide⟩,
    (c4_add_stop_full fullGradient (9 / 10) sampleColor2
      (by with_unfolding_all decide) (by with_unfolding_all decide)
      (by with_unfolding_all decide) (by with_unfolding_all decide)
      (by with_unfolding_all decide)).1⟩

/-- The sentinel pattern: `f16::from_f32(2.0)` is the half pattern `0x4000`. -/
theorem f16Bits_two : f16Bits 2 = 16384 := by
  with_unfolding_all decide

/-- The sentinel pattern decodes to exactly 2.0. -/
theorem f16Val_sentinel : f16Val 16384 = 2 := by
  with_unfolding_all decide

/-- Extraction of one 16-bit offset from the packed words recovers the slot
pattern, provided every slot pattern fits in 16 bits. -/
theorem offsetBitsAt_pack (stops : List (Option ColorStop))
    (hsize : ∀ j, j < 8 → stopOffsetBits (stops.getD j none) < 2 ^ 16)
    (p : Packed) (hp : p.offsets = packOffsetWords stops) :
    ∀ i, i < 8 → offsetBitsAt p i = stopOffsetBits (stops.getD i none) := by
  intro i hi
  unfold offsetBitsAt
  rw [hp]
  interval_cases i
  · exact pack_f16s_hi (hsize 1 (by norm_num))
  · exact pack_f16s_lo (hsize 1 (by norm_num))
  · exact pack_f16s_hi (hsize 3 (by norm_num))
  · exact pack_f16s_lo (hsize 3 (by norm_num))
  · exact pack_f16s_hi (hsize 5 (by norm_num))
  · exact pack_f16s_lo (hsize 5 (by norm_num))
  · exact pack_f16s_hi (hsize 7 (by norm_num))
  · exact pack_f16s_lo (hsize 7 (by norm_num))

/-- C10: in every `Packed` record produced by `pack` from a gradient with the
fixed eight stop slots and validated stop offsets, each empty slot encodes the
sentinel offset 2.0 as a 16-bit float in the packed offset words, every
occupied slot encodes a value inside `[0,1]`, the sentinel is strictly greater
than 1.0, and the sentinel pattern is never produced for a valid stop. -/
theorem c10_sentinel (g : Gradient) (bounds : Rectangle)
    (hlen : g.stopSlots.length = 8)
    (hvalid : ∀ s ∈ g.stopSlots, stopValid s) :
    (∀ i, i < 8 → g.stopSlots.getD i none = none →
      offsetBitsAt (pack g bounds) i = f16Bits 2 ∧ f16Val (f16Bits 2) = 2) ∧
    (∀ i, i < 8 → ∀ t, g.stopSlots.getD i none = some t →
      0 ≤ f16Val (offsetBitsAt (pack g bounds) i) ∧
      f16Val (offsetBitsAt (pack g bounds) i) ≤ 1 ∧
      offsetBitsAt (pack g bounds) i ≠ f16Bits 2) ∧
    (1 : ℚ) < f16Val (f16Bits 2) := by
  have hv2 : f16Val (f16Bits 2) = 2 := by rw [f16Bits_two]; exact f16Val_sentinel
  have hstopValid : ∀ j, j < 8 → ∀ t, g.stopSlots.getD j none = some t →
      0 ≤ t.offset ∧ t.offset ≤ 1 := by
    intro j hj t ht
    have hjlen : j < g.stopSlots.length := by omega
    rw [List.getD_eq_getElem _ _ hjlen] at ht
    have hmem : some t ∈ g.stopSlots := ht ▸ List.getElem_mem hjlen
    exact hvalid _ hmem
  have hsize : ∀ j, j < 8 → stopOffsetBits (g.stopSlots.getD j none) < 2 ^ 16 := by
    intro j hj
    cases hxj : g.stopSlots.getD j none with
    | none =>
      show f16Bits 2 < 2 ^ 16
      rw [f16Bits_two]
      norm_num
    | some t =>
      obtain ⟨ht0, ht1⟩ := hstopValid j hj t hxj
      have hbits := (f16Bits_unit ht0 ht1).1
      show f16Bits t.offset < 2 ^ 16
      have h16 : (2 : ℕ) ^ 16 = 65536 := by norm_num
      omega
  have hoff : (pack g bounds).offsets = packOffsetWords g.stopSlots := by
    cases g <;> rfl
  have hext := offsetBitsAt_pack g.stopSlots hsize (pack g bounds) hoff
  refine ⟨?_, ?_, by rw [hv2]; norm_num⟩
  · intro i hi hnone
    rw [hext i hi, hnone]
    exact ⟨rfl, hv2⟩
  · intro i hi t ht
    rw [hext i hi, ht]
    obtain ⟨ht0, ht1⟩ := hstopValid i hi t ht
    have hunit := f16Bits_unit ht0 ht1
    show 0 ≤ f16Val (f16Bits t.offset) ∧ f16Val (f16Bits t.offset) ≤ 1 ∧
      f16Bits t.offset ≠ f16Bits 2
    refine ⟨hunit.2.1, hunit.2.2, ?_⟩
    rw [f16Bits_two]
    omega

/-- A gradient with two occupied and six empty slots. -/
def sampleMixedGradient : Gradient :=
  Gradient.linear ⟨0, [some ⟨0, sampleColor⟩, some ⟨1 / 2, sampleColor2⟩,
    none, none, none, none, none, none]⟩

theorem c10_witness :
    (sampleMixedGradient.stopSlots.length = 8 ∧
      (∀ s ∈ sampleMixedGradient.stopSlots, stopValid s) ∧
      sampleMixedGradient.stopSlots.getD 2 none = none ∧ (2 : Nat) < 8) ∧
    offsetBitsAt (pack sampleMixedGradient sampleRect) 2 = f16Bits 2 ∧
    (1 : ℚ) < f16Val (f16Bits 2) := by
  have hlen : sampleMixedGradient.stopSlots.length = 8 := by
    with_unfolding_all decide
  have hvalid : ∀ s ∈ sampleMixedGradient.stopSlots, stopValid s := by
    with_unfolding_all decide
  refine ⟨⟨hlen, hvalid, by with_unfolding_all decide, by norm_num⟩, ?_, ?_⟩
  · exact ((c10_sentinel sampleMixedGradient sampleRect hlen hvalid).1 2
      (by norm_num) (by with_unfolding_all decide)).1
  · exact (c10_sentinel sampleMixedGradient sampleRect hlen hvalid).2.2

end Iced
